import Mathlib

set_option autoImplicit false

/-!
Verification of the nimh-dsst/utils PDF acquisition and reconciliation scripts.

Each Lean definition below is a shallow embedding of a Python function from
the repository, translated directly from the source.  External effects
(network, S3 listings, the filesystem, the logger) are made explicit: the
network is an oracle function, log output is an explicit list of structured
entries, and wall-clock time is an explicit integer clock.
-/

namespace NimhUtils

/-! ### Character-level models of the Python string primitives used -/

/-- Whitespace characters stripped by Python str.strip (ASCII subset). -/
def isPySpace (c : Char) : Bool :=
  c == ' ' || c == '\t' || c == '\n' || c == '\r' || c == '\x0b' || c == '\x0c'

/-- Model of Python str.strip on a character list. -/
def stripChars (cs : List Char) : List Char :=
  ((cs.dropWhile isPySpace).reverse.dropWhile isPySpace).reverse

/-- Model of Python str.split with a one-character separator. -/
def splitOnChar (sep : Char) : List Char → List (List Char)
  | [] => [[]]
  | c :: rest =>
    let r := splitOnChar sep rest
    if c = sep then [] :: r
    else
      match r with
      | [] => [[c]]
      | h :: t => (c :: h) :: t

/-- Join character lists with a separator character (inverse of split). -/
def joinSep (sep : Char) : List (List Char) → List Char
  | [] => []
  | [x] => x
  | x :: xs => x ++ sep :: joinSep sep xs

/-- Join character lists with a multi-character separator, modelling
Python sep.join(parts). -/
def joinSepSeq (sep : List Char) : List (List Char) → List Char
  | [] => []
  | [x] => x
  | x :: xs => x ++ sep ++ joinSepSeq sep xs

/-- Numeric value of an ASCII digit character. -/
def digitVal (c : Char) : Nat := c.toNat - 48

/-- Digit-run parser for Python int(): digits with single underscores
allowed between digits, as accepted by the CPython int constructor. -/
def pyDigits : Nat → List Char → Option Nat
  | acc, [] => some acc
  | _, ['_'] => none
  | acc, '_' :: c :: rest =>
    if c.isDigit then pyDigits (acc * 10 + digitVal c) rest else none
  | acc, c :: rest =>
    if c.isDigit then pyDigits (acc * 10 + digitVal c) rest else none

/-- Unsigned part of Python int(): a nonempty digit run. -/
def pyNatOf : List Char → Option Nat
  | [] => none
  | c :: rest => if c.isDigit then pyDigits (digitVal c) rest else none

/-- Model of Python int(str): strip whitespace, optional sign, digit run.
Returns none exactly when the CPython call would raise ValueError. -/
def pyInt? (s : String) : Option Int :=
  match stripChars s.data with
  | '-' :: rest => (pyNatOf rest).map (fun n => -(n : Int))
  | '+' :: rest => (pyNatOf rest).map (fun n => (n : Int))
  | l => (pyNatOf l).map (fun n => (n : Int))

/-- Model of Python pathlib name: the last nonempty path component. -/
def pathName (cs : List Char) : List Char :=
  (((splitOnChar '/' cs).filter (fun c => ¬ c.isEmpty)).getLastD [])

/-- Model of Python pathlib stem: the name with its suffix removed; a
suffix exists only when the last dot lies strictly inside the name. -/
def pathStemChars (cs : List Char) : List Char :=
  let n := pathName cs
  let r := n.reverse
  match r.findIdx? (fun c => c = '.') with
  | some j => if 0 < j ∧ j < n.length - 1 then (r.drop (j + 1)).reverse else n
  | none => n

/-- String wrapper for the stem model. -/
def pathStem (s : String) : String := String.mk (pathStemChars s.data)

end NimhUtils

namespace S3CsvInventory

open NimhUtils

/-- Log lines emitted by the inventory script (s3_csv_inventory.py). -/
inductive LogEntry where
  | dupWarning (pmid : Int) (row : Nat) (firstRow : Nat)
  | invalidFormat (row : Nat) (raw : String)
  | stemWarning (stem : String)
  deriving DecidableEq

/-- State threaded through parse_csv_pmids: the pmid set (as a
duplicate-free list), the seen_pmids dict mapping a PMID to its first
occurrence row, and the log. -/
structure ParseState where
  pmids : List Int
  seen : Int → Option Nat
  log : List LogEntry

/-- One loop iteration of parse_csv_pmids (s3_csv_inventory.py lines 49-61):
parse the PMID field; on duplicate log a warning naming the first
occurrence row from the seen_pmids dict; on ValueError log an
invalid-format error. -/
def parseStep (st : ParseState) (row : Nat) (raw : String) : ParseState :=
  match pyInt? raw with
  | some pmid =>
    if pmid ∈ st.pmids then
      { st with
        log := st.log ++ [.dupWarning pmid row ((st.seen pmid).getD 0)] }
    else
      { pmids := st.pmids ++ [pmid]
        seen := fun x => if x = pmid then some row else st.seen x
        log := st.log }
  | none => { st with log := st.log ++ [.invalidFormat row raw] }

/-- The enumerate loop of parse_csv_pmids. -/
def parseAux : Nat → List String → ParseState → ParseState
  | _, [], st => st
  | row, raw :: rest, st => parseAux (row + 1) rest (parseStep st row raw)

/-- Row numbering start: enumerate(reader, start=2 if has_header else 1). -/
def startRow (has_header : Bool) : Nat := if has_header then 2 else 1

/-- Model of parse_csv_pmids: fields is the list of PMID column values
yielded by the CSV reader, in file order. -/
def parse_csv_pmids (has_header : Bool) (fields : List String) : ParseState :=
  parseAux (startRow has_header) fields ⟨[], fun _ => none, []⟩

/-- The pagination loop of get_s3_pmids (s3_csv_inventory.py lines 91-106)
over the listed object keys, with accumulator. -/
def get_s3_pmidsAux : List String → List Int → List LogEntry → List Int × List LogEntry
  | [], pm, lg => (pm, lg)
  | k :: rest, pm, lg =>
    match pyInt? (pathStem k) with
    | some pmid => get_s3_pmidsAux rest (if pmid ∈ pm then pm else pm ++ [pmid]) lg
    | none => get_s3_pmidsAux rest pm (lg ++ [.stemWarning (pathStem k)])

/-- Model of get_s3_pmids: keys is the list of object keys returned by the
paginated listing. -/
def get_s3_pmids (keys : List String) : List Int × List LogEntry :=
  get_s3_pmidsAux keys [] []

/-- The analysis record returned by analyze_pmids. -/
structure Analysis where
  csv_unique : Nat
  s3_unique : Nat
  common : Nat
  missing : Nat
  extra : Nat
  missing_pmids : List Int
  extra_pmids : List Int

/-- Model of analyze_pmids (s3_csv_inventory.py lines 109-137): pure set
operations on the requested and remote PMID sets. -/
def analyze_pmids (csv_pmids s3_pmids : Finset Int) : Analysis :=
  let common_pmids := csv_pmids ∩ s3_pmids
  let missing_pmids := csv_pmids \ s3_pmids
  let extra_pmids := s3_pmids \ csv_pmids
  { csv_unique := csv_pmids.card
    s3_unique := s3_pmids.card
    common := common_pmids.card
    missing := missing_pmids.card
    extra := extra_pmids.card
    missing_pmids := missing_pmids.sort (· ≤ ·)
    extra_pmids := extra_pmids.sort (· ≤ ·) }

end S3CsvInventory

namespace AwsDownload

open NimhUtils

/-- Search for the first scheme separator in a URI, splitting the
characters around it; none when the URI has no scheme separator. -/
def breakOnScheme : List Char → Option (List Char × List Char)
  | ':' :: '/' :: '/' :: rest => some ([], rest)
  | c :: rest => (breakOnScheme rest).map (fun p => (c :: p.1, p.2))
  | [] => none

/-- Model of parse_s3_uri (aws_download.py lines 10-23) for URIs of the
shape proto://host/path: urlparse netloc and path with leading slashes
stripped from the key. -/
def parse_s3_uri (u : String) : String × String :=
  match breakOnScheme u.data with
  | some (_, rest) =>
    match splitOnChar '/' rest with
    | [] => ("", "")
    | host :: pathParts =>
      (String.mk host,
       String.mk ((joinSep '/' pathParts).dropWhile (fun c => c = '/')))
  | none => ("", String.mk (u.data.dropWhile (fun c => c = '/')))

/-- One manifest entry produced by read_pmid_locations. -/
structure FileInfo where
  s3_key : String
  local_name : String
  pmid : String
  deriving DecidableEq

/-- The local name derivation inside read_pmid_locations: subdirectory is
the first three characters of the PMID, or "other" for short PMIDs. -/
def mkLocalName (pmid : String) : String :=
  (if 3 ≤ pmid.length then pmid.take 3 else "other") ++ "/" ++ pmid ++ ".pdf"

/-- Log lines emitted by read_pmid_locations. -/
inductive RLog where
  | malformed (stripped : String)
  deriving DecidableEq

/-- The line loop of read_pmid_locations (aws_download.py lines 37-54):
skip blank lines, unpack exactly two comma-separated fields into a
manifest entry, and on the ValueError of any other field count log a
warning and skip the line. -/
def read_pmid_locationsAux : List String → List FileInfo × List RLog
  | [] => ([], [])
  | line :: rest =>
    if stripChars line.data = [] then read_pmid_locationsAux rest
    else
      match (splitOnChar ',' (stripChars line.data)).map String.mk with
      | [pmid, s3_uri] =>
        (⟨(parse_s3_uri s3_uri).2, mkLocalName pmid, pmid⟩ ::
           (read_pmid_locationsAux rest).1,
         (read_pmid_locationsAux rest).2)
      | _ =>
        ((read_pmid_locationsAux rest).1,
         RLog.malformed (String.mk (stripChars line.data)) ::
           (read_pmid_locationsAux rest).2)

/-- Model of read_pmid_locations: lines is the file content split into
lines; result is the manifest plus the warning log. -/
def read_pmid_locations (lines : List String) : List FileInfo × List RLog :=
  read_pmid_locationsAux lines

/-- Model of get_optimal_worker_count (aws_download.py lines 155-163):
twice the CPU count clamped between 4 and 32. -/
def get_optimal_worker_count (cpu_count : Nat) : Nat :=
  min (max (cpu_count * 2) 4) 32

/-- The fallback key mangling inside download_file (aws_download.py lines
86-88): split the key on single slashes and rejoin with double slashes. -/
def amendedKey (key : String) : String :=
  String.mk (joinSepSeq ['/', '/'] (splitOnChar '/' key.data))

/-- Log lines emitted by download_file. -/
inductive DLog where
  | successInfo (pmid : String) (local_name : String)
  | failedError (pmid : String) (s3_key : String)
  deriving DecidableEq

/-- Model of download_file (aws_download.py lines 58-99).  The oracle s3
says whether the S3 download of a key succeeds (false models a raised
exception).  On primary-key failure the amended double-slash key is
tried; whether or not that fallback succeeds, the function returns False
(the return False at line 99 sits outside the inner try), and nothing is
logged unless the fallback also fails.  Returns the boolean outcome, the
log, and the keys requested. -/
def download_file (s3 : String → Bool) (file_info : FileInfo) :
    Bool × List DLog × List String :=
  if s3 file_info.s3_key then
    (true, [.successInfo file_info.pmid file_info.local_name], [file_info.s3_key])
  else
    if s3 (amendedKey file_info.s3_key) then
      (false, [], [file_info.s3_key, amendedKey file_info.s3_key])
    else
      (false, [.failedError file_info.pmid file_info.s3_key],
       [file_info.s3_key, amendedKey file_info.s3_key])

end AwsDownload

namespace AwsUpload

open NimhUtils

/-- Log lines emitted by parse_csv_inventory (aws_upload.py): the
duplicate warning carries only the accession number and the duplicate
row's own path — nothing about the first occurrence. -/
inductive ULog where
  | dupFound (accession : Int) (path : String)
  | invalidStem (stem : String)
  deriving DecidableEq

/-- The row loop of parse_csv_inventory (aws_upload.py lines 42-71) with
its three accumulators: the upload list of kept paths, the processed
accession set, and the log.  A row whose stem parses to an accession
already processed is skipped with a duplicate warning; an unparseable
stem is skipped with an invalid-format error. -/
def parse_csv_inventoryAux :
    List String → List String → List Int → List ULog →
      List String × List Int × List ULog
  | [], ul, pa, lg => (ul, pa, lg)
  | name :: rest, ul, pa, lg =>
    match pyInt? (pathStem name) with
    | some acc =>
      if acc ∈ pa then
        parse_csv_inventoryAux rest ul pa (lg ++ [.dupFound acc name])
      else
        parse_csv_inventoryAux rest (ul ++ [name]) (pa ++ [acc]) lg
    | none =>
      parse_csv_inventoryAux rest ul pa (lg ++ [.invalidStem (pathStem name)])

/-- Model of parse_csv_inventory: names is the list of name column values
yielded by the CSV reader, in file order. -/
def parse_csv_inventory (names : List String) :
    List String × List Int × List ULog :=
  parse_csv_inventoryAux names [] [] []

end AwsUpload

namespace DownloadPdfs

/-- Values stored in the result dicts of download_pdfs.py: the PMID value
is an int, the status and filepath are strings. -/
inductive Val where
  | n (x : Nat)
  | s (x : String)
  deriving DecidableEq

/-- Log lines emitted by download_pdf. -/
inductive Log where
  | primaryFailed (pmid : Nat)
  | backupFailed (pmid : Nat)
  | successPrimary (pmid : Nat)
  | successBackup (pmid : Nat)
  | downloadFailed (pmid : Nat)
  deriving DecidableEq

/-- The success dict returned by download_pdf: PMID, Status and the local
Filepath pdfs/{pmid}.pdf derived from the identifier alone. -/
def successDict (pmid : Nat) : List (String × Val) :=
  [("PMID", .n pmid), ("Status", .s "success"),
   ("Filepath", .s ("pdfs/" ++ toString pmid ++ ".pdf"))]

/-- The failure dict returned by download_pdf: PMID, Status failed and an
empty Filepath; the dict has no failure-reason key. -/
def failedDict (pmid : Nat) : List (String × Val) :=
  [("PMID", .n pmid), ("Status", .s "failed"), ("Filepath", .s "")]

/-- The backup half of download_pdf (download_pdfs.py lines 55-74): try the
backup URL when present and truthy; non-200 statuses fall through
silently, exceptions are logged; exhaustion returns the failure dict.
The accumulated log and the list of URLs requested so far are threaded. -/
def tryBackup (net : String → Option Nat) (pmid : Nat) (backup_url : Option String)
    (lg : List Log) (reqs : List String) :
    List (String × Val) × List Log × List String :=
  match backup_url with
  | some b =>
    if b = "" then (failedDict pmid, lg ++ [.downloadFailed pmid], reqs)
    else
      match net b with
      | some 200 => (successDict pmid, lg ++ [.successBackup pmid], reqs ++ [b])
      | some _ => (failedDict pmid, lg ++ [.downloadFailed pmid], reqs ++ [b])
      | none =>
        (failedDict pmid, lg ++ [.backupFailed pmid, .downloadFailed pmid], reqs ++ [b])
  | none => (failedDict pmid, lg ++ [.downloadFailed pmid], reqs)

/-- Model of download_pdf (download_pdfs.py lines 25-78).  The network is
the oracle net: none models a raised exception, some s a response with
HTTP status s; only status 200 succeeds.  An absent or empty URL is
skipped without a request, matching the truthiness test on the URL cell.
Returns the result dict, the log, and the URLs actually requested. -/
def download_pdf (net : String → Option Nat) (pmid : Nat)
    (url backup_url : Option String) :
    List (String × Val) × List Log × List String :=
  match url with
  | some u =>
    if u = "" then tryBackup net pmid backup_url [] []
    else
      match net u with
      | some 200 => (successDict pmid, [.successPrimary pmid], [u])
      | some _ => tryBackup net pmid backup_url [] [u]
      | none => tryBackup net pmid backup_url [.primaryFailed pmid] [u]
  | none => tryBackup net pmid backup_url [] []

/-- A worker task as the coordinator sees it: it either returns a result
dict (condensed to the PMID and its Status) or raises. -/
inductive WorkerRes where
  | returns (status : String)
  | raises
  deriving DecidableEq

/-- Status carried by a returned worker result. -/
def wrStatus : WorkerRes → String
  | .returns s => s
  | .raises => ""

/-- Model of process_chunk (download_pdfs.py lines 81-97): gather one task
per row with return_exceptions=True, then keep only the non-exception
results. -/
def process_chunk (behav : Nat → WorkerRes) (chunk : List Nat) : List (Nat × String) :=
  (chunk.map (fun pmid => (pmid, behav pmid))).filterMap
    (fun x => match x.2 with
      | .returns st => some (x.1, st)
      | .raises => none)

/-- Fuel-indexed chunk partition; fuel bounds the recursion depth. -/
def chunksOfAux {α : Type} : Nat → Nat → List α → List (List α)
  | 0, _, _ => []
  | _ + 1, _, [] => []
  | fuel + 1, k, xs => xs.take k :: chunksOfAux fuel k (xs.drop k)

/-- The chunking of main (download_pdfs.py line 106): successive slices of
size chunk_size. -/
def chunksOf {α : Type} (k : Nat) (xs : List α) : List (List α) :=
  chunksOfAux xs.length k xs

/-- The chunk loop of main (download_pdfs.py lines 109-128): process each
chunk in order, extending the accumulated results; the inter-chunk sleep
has no effect on the collected outcomes. -/
def coordinator_run (behav : Nat → WorkerRes) (chunk_size : Nat)
    (manifest : List Nat) : List (Nat × String) :=
  (chunksOf chunk_size manifest).foldl (fun acc c => acc ++ process_chunk behav c) []

/-- Concrete scenario of claim C4: a manifest of the 25 identifiers 1..25. -/
def manifest25 : List Nat := List.range' 1 25

/-- Concrete scenario of claim C4: workers on identifiers 11..15 return a
failed result dict, all others a success dict; no worker raises. -/
def behav25 : Nat → WorkerRes := fun i =>
  if 11 ≤ i ∧ i ≤ 15 then .returns "failed" else .returns "success"

end DownloadPdfs

namespace MetapubDownload

/-- Behavior of one chunk of gather_urls as observed at the await: the
whole-chunk wait either times out (with some tasks already finished,
carried here to state what the code does with them), raises some other
exception, or completes with one result or exception per task. -/
inductive ChunkBehavior where
  | timedOut (completed : List (Nat × String)) (pending : List Nat)
  | fatal
  | done (results : List ((Nat × String) ⊕ Nat))

/-- What a chunk contributes to all_results in gather_urls
(metapub_download.py lines 170-201): a timed-out or fatal chunk
contributes nothing (the await is abandoned with everything it held and
the loop continues), a completed chunk contributes its non-exception
results. -/
def chunkContribution : ChunkBehavior → List (Nat × String)
  | .timedOut _ _ => []
  | .fatal => []
  | .done rs =>
    rs.filterMap (fun r => match r with
      | .inl o => some o
      | .inr _ => none)

/-- The chunk loop of gather_urls (metapub_download.py lines 160-209):
all_results is extended chunk by chunk in order. -/
def gather_urls (cb : Nat → ChunkBehavior) (numChunks : Nat) : List (Nat × String) :=
  (List.range numChunks).foldl (fun acc i => acc ++ chunkContribution (cb i)) []

/-- Global state of the module-level rate limiter in metapub_download.py:
the last-permit timestamp and the current wall clock. -/
structure RLGlobal where
  last : Int
  clock : Int
  deriving DecidableEq

/-- Per-caller state of one execution of the rate-limiting prologue of
find_with_timeout: program counter and the privately read copy of the
last-permit timestamp. -/
structure RLThread where
  pc : Nat
  r : Int
  deriving DecidableEq

/-- One atomic step of the rate-limiting prologue of find_with_timeout
(metapub_download.py lines 33-41).  Step 0 reads the module-level
last-request time into the caller.  Step 1 sleeps exactly the required
remainder of the interval d (advancing the clock) and then stores the new
last-request time; the permit is granted at that instant. -/
def rlStep (d : Int) (g : RLGlobal) (t : RLThread) :
    RLGlobal × RLThread × Option Int :=
  match t.pc with
  | 0 => (g, ⟨1, g.last⟩, none)
  | 1 =>
    let grant := if g.clock - t.r < d then t.r + d else g.clock
    (⟨grant, grant⟩, ⟨2, t.r⟩, some grant)
  | _ => (g, t, none)

/-- Run the rate limiter under an explicit interleaving: the schedule
names which caller steps next; grant times are collected in order. -/
def rlRun (d : Int) : List Nat → RLGlobal → List RLThread → List Int
  | [], _, _ => []
  | i :: rest, g, ts =>
    match ts[i]? with
    | none => rlRun d rest g ts
    | some t =>
      let x := rlStep d g t
      match x.2.2 with
      | none => rlRun d rest x.1 (ts.set i x.2.1)
      | some p => p :: rlRun d rest x.1 (ts.set i x.2.1)

/-- Run n fresh callers from the initial module state (last-request time 0)
under the given schedule. -/
def rlRunTop (d : Int) (n : Nat) (sched : List Nat) : List Int :=
  rlRun d sched ⟨0, 0⟩ (List.replicate n ⟨0, 0⟩)

/-- One complete, non-overlapping acquire: the caller arrives after delta
further time units and executes both steps of rlStep back to back. -/
def seqAcquire (d : Int) (g : RLGlobal) (delta : Nat) : RLGlobal × Int :=
  let g0 : RLGlobal := ⟨g.last, g.clock + delta⟩
  let s1 := rlStep d g0 ⟨0, 0⟩
  let s2 := rlStep d s1.1 s1.2.1
  (s2.1, (s2.2.2).getD 0)

/-- Sequential (non-overlapping) sequence of acquires with the given
inter-arrival delays. -/
def seqRun (d : Int) : List Nat → RLGlobal → List Int
  | [], _ => []
  | delta :: rest, g =>
    (seqAcquire d g delta).2 :: seqRun d rest (seqAcquire d g delta).1

/-- The claimed invariant: consecutive granted permits are at least d time
units apart. -/
def gapOKb (d : Int) : List Int → Bool
  | [] => true
  | [_] => true
  | x :: y :: rest => decide (d ≤ y - x) && gapOKb d (y :: rest)

/-- Permit gaps measured against the previous grant prev. -/
def gapsFromb (d : Int) (prev : Int) : List Int → Bool
  | [] => true
  | x :: xs => decide (prev + d ≤ x) && gapsFromb d x xs

end MetapubDownload

/-- Claim C1: for every requested manifest M (deduplicated before the
comparison) and every remote set R, the reconciler diff partitions M: the
missing count plus the present count equals the number of distinct
identifiers in M. -/
theorem C1_diff_partitions_manifest (M : List Int) (R : Finset Int) :
    (S3CsvInventory.analyze_pmids M.toFinset R).missing +
      (S3CsvInventory.analyze_pmids M.toFinset R).common = M.dedup.length := by
  show (M.toFinset \ R).card + (M.toFinset ∩ R).card = M.dedup.length
  rw [Finset.card_sdiff_add_card_inter]
  exact List.card_toFinset M

/-- Claim C9: the default worker pool size is twice the CPU count clamped
to the interval [4, 32], hence always between 4 and 32 inclusive. -/
theorem C9_worker_count_clamped (n : Nat) :
    AwsDownload.get_optimal_worker_count n = min (max (2 * n) 4) 32 ∧
    4 ≤ AwsDownload.get_optimal_worker_count n ∧
    AwsDownload.get_optimal_worker_count n ≤ 32 := by
  unfold AwsDownload.get_optimal_worker_count
  omega

/-- A manifest entry always carries the local name derivation of its own
pmid field. -/
theorem read_aux_local_name (lines : List String) :
    ∀ e ∈ (AwsDownload.read_pmid_locationsAux lines).1,
      e.local_name = AwsDownload.mkLocalName e.pmid := by
  induction lines with
  | nil =>
    intro e he
    simp [AwsDownload.read_pmid_locationsAux] at he
  | cons l rest ih =>
    intro e he
    rw [AwsDownload.read_pmid_locationsAux] at he
    split at he
    · exact ih e he
    · split at he
      · rcases List.mem_cons.mp he with h | h
        · subst h; rfl
        · exact ih e h
      · exact ih e he

/-- Claim C10: every manifest entry's local path is the first three
characters of the identifier followed by {identifier}.pdf, or the other
subdirectory for identifiers shorter than three characters; and every
well-formed line (nonblank, exactly two comma-separated fields)
deterministically yields exactly that one entry. -/
theorem C10_local_path_shape (lines : List String) :
    (∀ e ∈ (AwsDownload.read_pmid_locations lines).1,
      e.local_name =
        (if 3 ≤ e.pmid.length then e.pmid.take 3 else "other") ++
          "/" ++ e.pmid ++ ".pdf") ∧
    (∀ line pmid uri,
      NimhUtils.stripChars line.data ≠ [] →
      (NimhUtils.splitOnChar ',' (NimhUtils.stripChars line.data)).map String.mk
          = [pmid, uri] →
      (AwsDownload.read_pmid_locations [line]).1 =
        [⟨(AwsDownload.parse_s3_uri uri).2, AwsDownload.mkLocalName pmid, pmid⟩]) := by
  constructor
  · exact read_aux_local_name lines
  · intro line pmid uri h1 h2
    simp only [AwsDownload.read_pmid_locations, AwsDownload.read_pmid_locationsAux,
      if_neg h1, h2]

theorem C10_witness :
    (⟨"k.pdf", "other/12.pdf", "12"⟩ : AwsDownload.FileInfo) ∈
        (AwsDownload.read_pmid_locations ["12,s3://b/k.pdf"]).1 ∧
    (⟨"k.pdf", "other/12.pdf", "12"⟩ : AwsDownload.FileInfo).local_name =
      (if 3 ≤ (⟨"k.pdf", "other/12.pdf", "12"⟩ : AwsDownload.FileInfo).pmid.length
       then (⟨"k.pdf", "other/12.pdf", "12"⟩ : AwsDownload.FileInfo).pmid.take 3
       else "other") ++ "/" ++
        (⟨"k.pdf", "other/12.pdf", "12"⟩ : AwsDownload.FileInfo).pmid ++ ".pdf" :=
  ⟨by decide, (C10_local_path_shape ["12,s3://b/k.pdf"]).1 _ (by decide)⟩

/-- Claim C2, counterexample to the stated failure reason: with no primary
and no backup URL, download_pdf returns the failure dict, which carries no
failure-reason value at all — in particular no value "no sources" — so the
claimed reason cannot appear in the outcome. -/
theorem C2_no_reason_counterexample :
    (DownloadPdfs.download_pdf (fun _ => none) 1 none none).1 =
      DownloadPdfs.failedDict 1 ∧
    DownloadPdfs.Val.s "no sources" ∉
      ((DownloadPdfs.download_pdf (fun _ => none) 1 none none).1.map Prod.snd) ∧
    (DownloadPdfs.download_pdf (fun _ => none) 1 none none).2.2 = [] := by
  decide

/-- Claim C2 as amended: with an empty candidate list, download_pdf returns
the failed dict with empty filepath, logs only the final download-failed
line, performs no network request, and records no failure reason (no value
of the outcome is "no sources"). -/
theorem C2_empty_sources_amended (net : String → Option Nat) (pmid : Nat) :
    DownloadPdfs.download_pdf net pmid none none =
      (DownloadPdfs.failedDict pmid, [DownloadPdfs.Log.downloadFailed pmid], []) ∧
    DownloadPdfs.Val.s "no sources" ∉
      ((DownloadPdfs.download_pdf net pmid none none).1.map Prod.snd) := by
  refine ⟨rfl, ?_⟩
  show DownloadPdfs.Val.s "no sources" ∉
    (DownloadPdfs.failedDict pmid).map Prod.snd
  simp [DownloadPdfs.failedDict]

/-- Claim C3, counterexample in both cited fetch implementations.  In
download_pdf, with a failing primary and a succeeding backup, the success
dict contains the locally derived path pdfs/7.pdf and no value equal to
the backup location; the primary failure appears only in the log.  In
download_file, with a failing primary key and a succeeding amended
double-slash key, the outcome is False — not success — and nothing at all
is logged, neither the primary failure nor any success line. -/
theorem C3_location_counterexample :
    (DownloadPdfs.download_pdf
        (fun u => if u = "http://b" then some 200 else none) 7
        (some "http://a") (some "http://b")).1 = DownloadPdfs.successDict 7 ∧
    DownloadPdfs.Val.s "http://b" ∉
      ((DownloadPdfs.download_pdf
          (fun u => if u = "http://b" then some 200 else none) 7
          (some "http://a") (some "http://b")).1.map Prod.snd) ∧
    DownloadPdfs.Log.primaryFailed 7 ∈
      (DownloadPdfs.download_pdf
          (fun u => if u = "http://b" then some 200 else none) 7
          (some "http://a") (some "http://b")).2.1 ∧
    (AwsDownload.download_file (fun k => k == "a//1234.pdf")
        ⟨"a/1234.pdf", "123/1234.pdf", "1234"⟩).1 = false ∧
    (AwsDownload.download_file (fun k => k == "a//1234.pdf")
        ⟨"a/1234.pdf", "123/1234.pdf", "1234"⟩).2.1 = [] ∧
    (AwsDownload.download_file (fun k => k == "a//1234.pdf")
        ⟨"a/1234.pdf", "123/1234.pdf", "1234"⟩).2.2 =
      ["a/1234.pdf", "a//1234.pdf"] := by
  decide

/-- Claim C3 as amended, covering both cited fetch implementations.  In
download_pdf, a failing (exception-raising) primary with a succeeding
backup returns the success dict whose filepath is derived from the
identifier alone; which source was used and the primary failure are
recorded only in the log, and the outcome carries no failure reason.  In
download_file, a failing primary key whose amended double-slash fallback
key succeeds nevertheless returns False, and nothing is logged: neither
the primary failure nor the fallback's success appears anywhere. -/
theorem C3_backup_success_amended :
    (∀ (net : String → Option Nat) (pmid : Nat) (u b : String),
      u ≠ "" → b ≠ "" → net u = none → net b = some 200 →
      DownloadPdfs.download_pdf net pmid (some u) (some b) =
        (DownloadPdfs.successDict pmid,
         [DownloadPdfs.Log.primaryFailed pmid, DownloadPdfs.Log.successBackup pmid],
         [u, b])) ∧
    (∀ (s3 : String → Bool) (fi : AwsDownload.FileInfo),
      s3 fi.s3_key = false → s3 (AwsDownload.amendedKey fi.s3_key) = true →
      AwsDownload.download_file s3 fi =
        (false, [], [fi.s3_key, AwsDownload.amendedKey fi.s3_key])) := by
  constructor
  · intro net pmid u b hu hb h1 h2
    simp [DownloadPdfs.download_pdf, DownloadPdfs.tryBackup, hu, hb, h1, h2]
  · intro s3 fi h1 h2
    simp [AwsDownload.download_file, h1, h2]

theorem C3_backup_success_witness :
    DownloadPdfs.download_pdf (fun x => if x = "b" then some 200 else none) 7
        (some "a") (some "b") =
      (DownloadPdfs.successDict 7,
       [DownloadPdfs.Log.primaryFailed 7, DownloadPdfs.Log.successBackup 7],
       ["a", "b"]) ∧
    AwsDownload.download_file (fun k => k == "a//1234.pdf")
        ⟨"a/1234.pdf", "123/1234.pdf", "1234"⟩ =
      (false, [], ["a/1234.pdf", "a//1234.pdf"]) :=
  ⟨C3_backup_success_amended.1 _ 7 "a" "b" (by decide) (by decide)
     (by decide) (by decide),
   (C3_backup_success_amended.2 (fun k => k == "a//1234.pdf")
       ⟨"a/1234.pdf", "123/1234.pdf", "1234"⟩ (by decide) (by decide)).trans
     (by decide)⟩

/-- Folding list append over a function of each element builds the flatten
of the mapped list. -/
theorem foldl_append_flatten {α β : Type} (f : α → List β) (l : List α) :
    ∀ init : List β,
      l.foldl (fun acc c => acc ++ f c) init = init ++ (l.map f).flatten := by
  induction l with
  | nil => intro init; simp
  | cons a t ih =>
    intro init
    simp only [List.foldl_cons, List.map_cons, List.flatten_cons, ih,
      List.append_assoc]

/-- With positive chunk size and enough fuel, flattening the chunk
partition recovers the original list. -/
theorem chunksOfAux_flatten {α : Type} (k : Nat) (hk : 0 < k) :
    ∀ (fuel : Nat) (xs : List α), xs.length ≤ fuel →
      (DownloadPdfs.chunksOfAux fuel k xs).flatten = xs := by
  intro fuel
  induction fuel with
  | zero =>
    intro xs h
    rw [Nat.le_zero, List.length_eq_zero] at h
    subst h
    rfl
  | succ n ih =>
    intro xs h
    cases xs with
    | nil => rfl
    | cons a t =>
      have hstep : DownloadPdfs.chunksOfAux (n + 1) k (a :: t) =
          (a :: t).take k :: DownloadPdfs.chunksOfAux n k ((a :: t).drop k) := rfl
      have hlen : ((a :: t).drop k).length ≤ n := by
        rw [List.length_drop]
        simp only [List.length_cons] at h ⊢
        omega
      rw [hstep, List.flatten_cons, ih ((a :: t).drop k) hlen,
        List.take_append_drop]

/-- Flattening the chunk partition recovers the manifest. -/
theorem chunksOf_flatten {α : Type} (k : Nat) (hk : 0 < k) (xs : List α) :
    (DownloadPdfs.chunksOf k xs).flatten = xs :=
  chunksOfAux_flatten k hk xs.length xs le_rfl

/-- The coordinator's accumulated results are the per-chunk results in
chunk order. -/
theorem coordinator_run_eq_flatten (behav : Nat → DownloadPdfs.WorkerRes)
    (k : Nat) (m : List Nat) :
    DownloadPdfs.coordinator_run behav k m =
      ((DownloadPdfs.chunksOf k m).map (DownloadPdfs.process_chunk behav)).flatten := by
  rw [DownloadPdfs.coordinator_run, foldl_append_flatten]
  rfl

/-- When no worker in a chunk raises, process_chunk keeps one outcome per
row, in row order. -/
theorem process_chunk_no_raises (behav : Nat → DownloadPdfs.WorkerRes)
    (c : List Nat) (h : ∀ i ∈ c, behav i ≠ DownloadPdfs.WorkerRes.raises) :
    DownloadPdfs.process_chunk behav c =
      c.map (fun i => (i, DownloadPdfs.wrStatus (behav i))) := by
  induction c with
  | nil => rfl
  | cons a t ih =>
    have ha := h a (List.mem_cons_self a t)
    rw [DownloadPdfs.process_chunk, List.map_cons, List.filterMap_cons]
    cases hb : behav a with
    | raises => exact absurd hb ha
    | returns s =>
      simp only [List.map_cons]
      rw [← DownloadPdfs.process_chunk, ih (fun i hi => h i (List.mem_cons_of_mem a hi))]
      simp [DownloadPdfs.wrStatus, hb]

/-- Claim C4, counterexample to exception conversion: a one-row manifest
whose worker raises produces zero outcomes — the exception is filtered
out of the results rather than converted into a failed outcome. -/
theorem C4_dropped_exception_counterexample :
    DownloadPdfs.coordinator_run (fun _ => DownloadPdfs.WorkerRes.raises) 10 [1] = [] ∧
    (DownloadPdfs.coordinator_run (fun _ => DownloadPdfs.WorkerRes.raises) 10 [1]).length ≠
      ([1] : List Nat).length := by
  decide

/-- Claim C4 as amended: when no worker raises, the run yields exactly one
outcome per manifest row in manifest order (raised exceptions would be
silently dropped instead); in the 25-identifier scenario with workers
returning failed dicts for identifiers 11 to 15, the run yields exactly 25
outcomes, 5 failed and 20 success, and the results are the three chunk
results concatenated in chunk order. -/
theorem C4_chunked_run_amended :
    (∀ (behav : Nat → DownloadPdfs.WorkerRes) (m : List Nat) (k : Nat), 0 < k →
      (∀ i ∈ m, behav i ≠ DownloadPdfs.WorkerRes.raises) →
      DownloadPdfs.coordinator_run behav k m =
        m.map (fun i => (i, DownloadPdfs.wrStatus (behav i)))) ∧
    (DownloadPdfs.coordinator_run DownloadPdfs.behav25 10 DownloadPdfs.manifest25).length
      = 25 ∧
    ((DownloadPdfs.coordinator_run DownloadPdfs.behav25 10 DownloadPdfs.manifest25).filter
        (fun o => o.2 = "failed")).length = 5 ∧
    ((DownloadPdfs.coordinator_run DownloadPdfs.behav25 10 DownloadPdfs.manifest25).filter
        (fun o => o.2 = "success")).length = 20 ∧
    DownloadPdfs.coordinator_run DownloadPdfs.behav25 10 DownloadPdfs.manifest25 =
      DownloadPdfs.process_chunk DownloadPdfs.behav25 (DownloadPdfs.manifest25.take 10) ++
      (DownloadPdfs.process_chunk DownloadPdfs.behav25
          ((DownloadPdfs.manifest25.drop 10).take 10) ++
        DownloadPdfs.process_chunk DownloadPdfs.behav25
          ((DownloadPdfs.manifest25.drop 10).drop 10)) := by
  refine ⟨?_, by decide, by decide, by decide, by decide⟩
  intro behav m k hk h
  rw [coordinator_run_eq_flatten]
  have hall : ∀ c ∈ DownloadPdfs.chunksOf k m,
      DownloadPdfs.process_chunk behav c =
        c.map (fun i => (i, DownloadPdfs.wrStatus (behav i))) := by
    intro c hc
    apply process_chunk_no_raises
    intro i hi
    apply h
    rw [← chunksOf_flatten k hk m]
    exact List.mem_flatten.mpr ⟨c, hc, hi⟩
  rw [List.map_congr_left hall, ← List.map_flatten, chunksOf_flatten k hk m]

theorem C4_chunked_run_witness :
    DownloadPdfs.coordinator_run (fun _ => DownloadPdfs.WorkerRes.returns "success") 2
        [1, 2, 3] = [(1, "success"), (2, "success"), (3, "success")] :=
  (C4_chunked_run_amended.1 (fun _ => DownloadPdfs.WorkerRes.returns "success")
      [1, 2, 3] 2 (by decide)
      (fun _ _ h => DownloadPdfs.WorkerRes.noConfusion h)).trans (by decide)

/-- Claim C5, counterexample to retaining partial progress: a chunk that
times out with one outcome already completed and one task still pending
contributes nothing — the completed outcome is discarded and no timed_out
outcome is recorded for the pending identifier. -/
theorem C5_chunk_timeout_counterexample :
    MetapubDownload.gather_urls
        (fun _ => MetapubDownload.ChunkBehavior.timedOut [(7, "ok")] [8]) 1 = [] ∧
    (7, "ok") ∉ MetapubDownload.gather_urls
        (fun _ => MetapubDownload.ChunkBehavior.timedOut [(7, "ok")] [8]) 1 ∧
    (8, "timed_out") ∉ MetapubDownload.gather_urls
        (fun _ => MetapubDownload.ChunkBehavior.timedOut [(7, "ok")] [8]) 1 := by
  decide

/-- Claim C5 as amended: the run is the concatenation of the per-chunk
contributions in chunk order; a timed-out chunk contributes nothing, its
completed and pending items alike being discarded, and later chunks still
contribute — illustrated by a timed-out first chunk followed by a
completed second chunk. -/
theorem C5_chunk_timeout_amended :
    (∀ (cb : Nat → MetapubDownload.ChunkBehavior) (n : Nat),
      MetapubDownload.gather_urls cb n =
        ((List.range n).map (fun i => MetapubDownload.chunkContribution (cb i))).flatten) ∧
    (∀ completed pending,
      MetapubDownload.chunkContribution
        (MetapubDownload.ChunkBehavior.timedOut completed pending) = []) ∧
    MetapubDownload.gather_urls
        (fun i =>
          if i = 0 then MetapubDownload.ChunkBehavior.timedOut [(7, "ok")] [8]
          else MetapubDownload.ChunkBehavior.done [Sum.inl (9, "x")]) 2 =
      [(9, "x")] := by
  refine ⟨?_, fun _ _ => rfl, by decide⟩
  intro cb n
  rw [MetapubDownload.gather_urls, foldl_append_flatten]
  rfl

/-- Claim C8, counterexample to the concurrent invariant: two interleaved
callers both read the last-permit time before either writes it back, and
both are granted a permit at time 5 — zero time apart, violating the
minimum gap of 5. -/
theorem C8_race_counterexample :
    MetapubDownload.rlRunTop 5 2 [0, 1, 0, 1] = [5, 5] ∧
    MetapubDownload.gapOKb 5 (MetapubDownload.rlRunTop 5 2 [0, 1, 0, 1]) = false := by
  decide

/-- Sequential acquires keep every grant at least d after the previous
grant recorded in the global state. -/
theorem seqRun_gapsFrom (d : Int) :
    ∀ (delays : List Nat) (g : MetapubDownload.RLGlobal), g.last ≤ g.clock →
      MetapubDownload.gapsFromb d g.last (MetapubDownload.seqRun d delays g) = true := by
  intro delays
  induction delays with
  | nil => intro g _; rfl
  | cons delta rest ih =>
    intro g hg
    simp only [MetapubDownload.seqRun, MetapubDownload.seqAcquire,
      MetapubDownload.rlStep, MetapubDownload.gapsFromb, Option.getD_some,
      Bool.and_eq_true, decide_eq_true_eq]
    by_cases hc : g.clock + (delta : Int) - g.last < d
    · rw [if_pos hc]
      refine ⟨le_refl _, ?_⟩
      exact ih ⟨g.last + d, g.last + d⟩ le_rfl
    · rw [if_neg hc]
      refine ⟨by omega, ?_⟩
      exact ih ⟨g.clock + (delta : Int), g.clock + (delta : Int)⟩ le_rfl

/-- Chained gaps from any previous grant give pairwise consecutive gaps. -/
theorem gapsFromb_gapOKb (d : Int) :
    ∀ (l : List Int) (prev : Int),
      MetapubDownload.gapsFromb d prev l = true →
      MetapubDownload.gapOKb d l = true := by
  intro l
  induction l with
  | nil => intro prev _; rfl
  | cons x xs ih =>
    intro prev h
    rw [MetapubDownload.gapsFromb, Bool.and_eq_true] at h
    cases xs with
    | nil => rfl
    | cons y ys =>
      have h2 := h.2
      have hrest := ih x h2
      rw [MetapubDownload.gapOKb, Bool.and_eq_true]
      refine ⟨?_, hrest⟩
      rw [MetapubDownload.gapsFromb, Bool.and_eq_true] at h2
      have hxy := of_decide_eq_true h2.1
      simp only [decide_eq_true_eq]
      omega

/-- Claim C8 as amended: when acquire calls do not overlap (each caller
runs its read and its grant back to back, with arbitrary further delays
between calls), consecutive permits from the module rate limiter are
always at least the interval d apart; the interleaved counterexample
shows the stated claim fails for overlapping callers. -/
theorem C8_sequential_amended (d : Int) (delays : List Nat) :
    MetapubDownload.gapOKb d (MetapubDownload.seqRun d delays ⟨0, 0⟩) = true :=
  gapsFromb_gapOKb d _ _ (seqRun_gapsFrom d delays ⟨0, 0⟩ le_rfl)

open NimhUtils S3CsvInventory in
/-- Unfolding one row of the parse loop. -/
theorem parseAux_cons (s : Nat) (f : String) (rest : List String) (st : ParseState) :
    parseAux s (f :: rest) st = parseAux (s + 1) rest (parseStep st s f) := rfl

open NimhUtils S3CsvInventory in
/-- A row whose field fails to parse leaves the pmid set unchanged. -/
theorem parseStep_pmids_of_none {st : ParseState} {row : Nat} {raw : String}
    (h : pyInt? raw = none) : (parseStep st row raw).pmids = st.pmids := by
  simp [parseStep, h]

open NimhUtils S3CsvInventory in
/-- A duplicate row leaves the pmid set unchanged. -/
theorem parseStep_pmids_of_mem {st : ParseState} {row : Nat} {raw : String} {q : Int}
    (h : pyInt? raw = some q) (hq : q ∈ st.pmids) :
    (parseStep st row raw).pmids = st.pmids := by
  simp [parseStep, h, hq]

open NimhUtils S3CsvInventory in
/-- A fresh row appends its pmid to the set. -/
theorem parseStep_pmids_of_new {st : ParseState} {row : Nat} {raw : String} {q : Int}
    (h : pyInt? raw = some q) (hq : q ∉ st.pmids) :
    (parseStep st row raw).pmids = st.pmids ++ [q] := by
  simp [parseStep, h, hq]

open NimhUtils S3CsvInventory in
/-- A row whose field fails to parse leaves the seen dict unchanged. -/
theorem parseStep_seen_of_none {st : ParseState} {row : Nat} {raw : String}
    (h : pyInt? raw = none) : (parseStep st row raw).seen = st.seen := by
  simp [parseStep, h]

open NimhUtils S3CsvInventory in
/-- A duplicate row leaves the seen dict unchanged. -/
theorem parseStep_seen_of_mem {st : ParseState} {row : Nat} {raw : String} {q : Int}
    (h : pyInt? raw = some q) (hq : q ∈ st.pmids) :
    (parseStep st row raw).seen = st.seen := by
  simp [parseStep, h, hq]

open NimhUtils S3CsvInventory in
/-- A fresh row records its row number in the seen dict. -/
theorem parseStep_seen_of_new {st : ParseState} {row : Nat} {raw : String} {q : Int}
    (h : pyInt? raw = some q) (hq : q ∉ st.pmids) :
    (parseStep st row raw).seen = fun x => if x = q then some row else st.seen x := by
  simp [parseStep, h, hq]

open NimhUtils S3CsvInventory in
/-- The parse loop only appends to the log. -/
theorem parseStep_log_mono (st : ParseState) (row : Nat) (raw : String)
    (e : LogEntry) (he : e ∈ st.log) : e ∈ (parseStep st row raw).log := by
  simp only [parseStep]
  split
  · split
    · exact List.mem_append_left _ he
    · exact he
  · exact List.mem_append_left _ he

open NimhUtils S3CsvInventory in
/-- Log entries survive the rest of the parse loop. -/
theorem parseAux_log_mono (fs : List String) : ∀ (s : Nat) (st : ParseState)
    (e : LogEntry), e ∈ st.log → e ∈ (parseAux s fs st).log := by
  induction fs with
  | nil => intro s st e he; exact he
  | cons f rest ih =>
    intro s st e he
    exact ih (s + 1) _ e (parseStep_log_mono st s f e he)

open NimhUtils S3CsvInventory in
/-- The seen dict always reflects membership in the pmid set. -/
theorem parseStep_consistent {st : ParseState} (row : Nat) (raw : String)
    (hcons : ∀ p : Int, p ∈ st.pmids ↔ (st.seen p).isSome) :
    ∀ p : Int, p ∈ (parseStep st row raw).pmids ↔
      ((parseStep st row raw).seen p).isSome := by
  intro p
  cases hf : pyInt? raw with
  | none => rw [parseStep_pmids_of_none hf, parseStep_seen_of_none hf]; exact hcons p
  | some q =>
    by_cases hq : q ∈ st.pmids
    · rw [parseStep_pmids_of_mem hf hq, parseStep_seen_of_mem hf hq]; exact hcons p
    · rw [parseStep_pmids_of_new hf hq, parseStep_seen_of_new hf hq]
      simp only [List.mem_append, List.mem_singleton]
      by_cases hpq : p = q
      · subst hpq; simp
      · simp [hpq, hcons p]

open NimhUtils S3CsvInventory in
/-- Membership in the parsed pmid set is exactly membership among the
parseable field values. -/
theorem parseAux_mem (fs : List String) : ∀ (s : Nat) (st : ParseState) (p : Int),
    p ∈ (parseAux s fs st).pmids ↔ p ∈ st.pmids ∨ p ∈ fs.filterMap pyInt? := by
  induction fs with
  | nil => intro s st p; simp [parseAux]
  | cons f rest ih =>
    intro s st p
    rw [parseAux_cons, ih]
    cases hf : pyInt? f with
    | none =>
      simp only [List.filterMap_cons, hf]
      rw [parseStep_pmids_of_none hf]
    | some q =>
      simp only [List.filterMap_cons, hf, List.mem_cons]
      by_cases hq : q ∈ st.pmids
      · rw [parseStep_pmids_of_mem hf hq]
        constructor
        · rintro (h | h)
          · exact Or.inl h
          · exact Or.inr (Or.inr h)
        · rintro (h | h | h)
          · exact Or.inl h
          · exact Or.inl (h ▸ hq)
          · exact Or.inr h
      · rw [parseStep_pmids_of_new hf hq]
        simp only [List.mem_append, List.mem_singleton]
        tauto

open NimhUtils S3CsvInventory in
/-- The parsed pmid set never holds an identifier twice. -/
theorem parseAux_nodup (fs : List String) : ∀ (s : Nat) (st : ParseState),
    st.pmids.Nodup → (parseAux s fs st).pmids.Nodup := by
  induction fs with
  | nil => intro s st h; exact h
  | cons f rest ih =>
    intro s st h
    rw [parseAux_cons]
    apply ih
    cases hf : pyInt? f with
    | none => rw [parseStep_pmids_of_none hf]; exact h
    | some q =>
      by_cases hq : q ∈ st.pmids
      · rw [parseStep_pmids_of_mem hf hq]; exact h
      · rw [parseStep_pmids_of_new hf hq]
        refine h.append (List.nodup_singleton q) ?_
        intro x hx hx'
        rw [List.mem_singleton] at hx'
        exact hq (hx' ▸ hx)

open NimhUtils S3CsvInventory in
/-- Every unparseable field is logged as an invalid-format error at its
row number. -/
theorem parseAux_invalid (fs : List String) : ∀ (s : Nat) (st : ParseState)
    (i : Nat) (hi : i < fs.length), pyInt? fs[i] = none →
    LogEntry.invalidFormat (s + i) fs[i] ∈ (parseAux s fs st).log := by
  induction fs with
  | nil => intro s st i hi; exact absurd hi (Nat.not_lt_zero i)
  | cons f rest ih =>
    intro s st i hi hp
    rw [parseAux_cons]
    cases i with
    | zero =>
      rw [List.getElem_cons_zero] at hp ⊢
      rw [Nat.add_zero]
      apply parseAux_log_mono
      simp [parseStep, hp]
    | succ i2 =>
      have hi2 : i2 < rest.length := by
        simp only [List.length_cons] at hi; omega
      rw [List.getElem_cons_succ] at hp ⊢
      rw [show s + (i2 + 1) = s + 1 + i2 from by omega]
      exact ih (s + 1) (parseStep st s f) i2 hi2 hp

open NimhUtils S3CsvInventory in
/-- Index-shifting step for the duplicate-logging invariant: when the head
row does not parse to p, a duplicate of p among the remaining rows lifts
to a duplicate in the whole list with its first occurrence shifted by one. -/
theorem dup_shift_lift (f : String) (rest : List String) (s : Nat)
    (st2 : ParseState) (p : Int) (i2 : Nat)
    (hfne : pyInt? f ≠ some p)
    (IH2 : (∃ j, ∃ hj : j < rest.length, j < i2 ∧ pyInt? rest[j] = some p) →
      ∃ j, ∃ hj : j < rest.length, j < i2 ∧ pyInt? rest[j] = some p ∧
        (∀ k, ∀ hk : k < rest.length, k < j → pyInt? rest[k] ≠ some p) ∧
        LogEntry.dupWarning p (s + 1 + i2) (s + 1 + j) ∈ (parseAux (s + 1) rest st2).log)
    (hex : ∃ j, ∃ hj : j < (f :: rest).length, j < i2 + 1 ∧
      pyInt? (f :: rest)[j] = some p) :
    ∃ j, ∃ hj : j < (f :: rest).length, j < i2 + 1 ∧ pyInt? (f :: rest)[j] = some p ∧
      (∀ k, ∀ hk : k < (f :: rest).length, k < j → pyInt? (f :: rest)[k] ≠ some p) ∧
      LogEntry.dupWarning p (s + (i2 + 1)) (s + j) ∈ (parseAux (s + 1) rest st2).log := by
  obtain ⟨j, hj, hjlt, hpj⟩ := hex
  cases j with
  | zero =>
    rw [List.getElem_cons_zero] at hpj
    exact absurd hpj hfne
  | succ j2 =>
    have hj2 : j2 < rest.length := by
      simp only [List.length_cons] at hj; omega
    rw [List.getElem_cons_succ] at hpj
    obtain ⟨j0, hj0, hlt0, hpj0, hmin0, hlog0⟩ := IH2 ⟨j2, hj2, by omega, hpj⟩
    refine ⟨j0 + 1, by simp only [List.length_cons]; omega, by omega, ?_, ?_, ?_⟩
    · rw [List.getElem_cons_succ]; exact hpj0
    · intro k hk hkj
      cases k with
      | zero => rw [List.getElem_cons_zero]; exact hfne
      | succ k2 =>
        rw [List.getElem_cons_succ]
        exact hmin0 k2 (by simp only [List.length_cons] at hk; omega) (by omega)
    · rw [show s + (i2 + 1) = s + 1 + i2 from by omega,
        show s + (j0 + 1) = s + 1 + j0 from by omega]
      exact hlog0

open NimhUtils S3CsvInventory in
/-- The duplicate-logging invariant of the parse loop: an occurrence of p
whose identifier is already in the seen dict gets a duplicate warning
naming the recorded first row; an occurrence of p preceded by an earlier
occurrence inside the processed rows gets a duplicate warning naming
exactly the earliest such row. -/
theorem parseAux_dup (fs : List String) : ∀ (s : Nat) (st : ParseState),
    (∀ p : Int, p ∈ st.pmids ↔ (st.seen p).isSome) →
    ∀ (i : Nat) (hi : i < fs.length) (p : Int), pyInt? fs[i] = some p →
      (∀ r : Nat, st.seen p = some r →
        LogEntry.dupWarning p (s + i) r ∈ (parseAux s fs st).log) ∧
      (st.seen p = none →
        (∃ j, ∃ hj : j < fs.length, j < i ∧ pyInt? fs[j] = some p) →
        ∃ j, ∃ hj : j < fs.length, j < i ∧ pyInt? fs[j] = some p ∧
          (∀ k, ∀ hk : k < fs.length, k < j → pyInt? fs[k] ≠ some p) ∧
          LogEntry.dupWarning p (s + i) (s + j) ∈ (parseAux s fs st).log) := by
  induction fs with
  | nil => intro s st _ i hi; exact absurd hi (Nat.not_lt_zero i)
  | cons f rest ih =>
    intro s st hcons i hi p hp
    rw [parseAux_cons]
    cases i with
    | zero =>
      rw [List.getElem_cons_zero] at hp
      constructor
      · intro r hr
        have hmem : p ∈ st.pmids := (hcons p).mpr (by rw [hr]; rfl)
        rw [Nat.add_zero]
        apply parseAux_log_mono
        have hlog : (parseStep st s f).log = st.log ++ [.dupWarning p s r] := by
          simp [parseStep, hp, hmem, hr]
        rw [hlog]
        exact List.mem_append_right _ (List.mem_singleton_self _)
      · intro _ hex
        obtain ⟨j, hj, hj0, _⟩ := hex
        exact absurd hj0 (Nat.not_lt_zero j)
    | succ i2 =>
      have hi2 : i2 < rest.length := by
        simp only [List.length_cons] at hi; omega
      rw [List.getElem_cons_succ] at hp
      cases hf : pyInt? f with
      | none =>
        have hsn := @parseStep_seen_of_none st s f hf
        have IH := ih (s + 1) (parseStep st s f)
          (parseStep_consistent s f hcons) i2 hi2 p hp
        constructor
        · intro r hr
          rw [show s + (i2 + 1) = s + 1 + i2 from by omega]
          exact IH.1 r (by rw [hsn]; exact hr)
        · intro hnone hex
          exact dup_shift_lift f rest s _ p i2 (by rw [hf]; simp)
            (IH.2 (by rw [hsn]; exact hnone)) hex
      | some q =>
        by_cases hq : q ∈ st.pmids
        · have hsn := @parseStep_seen_of_mem st s f _ hf hq
          have IH := ih (s + 1) (parseStep st s f)
            (parseStep_consistent s f hcons) i2 hi2 p hp
          constructor
          · intro r hr
            rw [show s + (i2 + 1) = s + 1 + i2 from by omega]
            exact IH.1 r (by rw [hsn]; exact hr)
          · intro hnone hex
            have hpq : p ≠ q := by
              intro h
              subst h
              have hs := (hcons p).mp hq
              rw [hnone] at hs
              exact absurd hs (by simp)
            refine dup_shift_lift f rest s _ p i2 ?_
              (IH.2 (by rw [hsn]; exact hnone)) hex
            rw [hf]
            intro h
            exact hpq (Option.some.inj h).symm
        · have hsn := @parseStep_seen_of_new st s f _ hf hq
          have IH := ih (s + 1) (parseStep st s f)
            (parseStep_consistent s f hcons) i2 hi2 p hp
          constructor
          · intro r hr
            have hpq : p ≠ q := by
              intro h
              exact hq (h ▸ (hcons p).mpr (by rw [hr]; rfl))
            rw [show s + (i2 + 1) = s + 1 + i2 from by omega]
            refine IH.1 r ?_
            rw [hsn]
            show (if p = q then some s else st.seen p) = some r
            rw [if_neg hpq]
            exact hr
          · intro hnone hex
            by_cases hpq : p = q
            · subst hpq
              have hlook : (parseStep st s f).seen p = some s := by
                rw [hsn]
                show (if p = p then some s else st.seen p) = some s
                rw [if_pos rfl]
              have hlog := IH.1 s hlook
              refine ⟨0, by simp only [List.length_cons]; omega,
                by omega, ?_, ?_, ?_⟩
              · rw [List.getElem_cons_zero]; exact hf
              · intro k hk hkj
                exact absurd hkj (Nat.not_lt_zero k)
              · rw [show s + (i2 + 1) = s + 1 + i2 from by omega, Nat.add_zero]
                exact hlog
            · refine dup_shift_lift f rest s _ p i2 ?_ (IH.2 ?_) hex
              · rw [hf]
                intro h
                exact hpq (Option.some.inj h).symm
              · rw [hsn]
                show (if p = q then some s else st.seen p) = none
                rw [if_neg hpq]
                exact hnone

open NimhUtils AwsUpload in
/-- Membership in the processed accession set is exactly membership among
the names whose stem parses. -/
theorem au_aux_mem (names : List String) :
    ∀ (ul : List String) (pa : List Int) (lg : List ULog) (p : Int),
      p ∈ (parse_csv_inventoryAux names ul pa lg).2.1 ↔
        p ∈ pa ∨ p ∈ names.filterMap (fun n => pyInt? (pathStem n)) := by
  induction names with
  | nil => intro ul pa lg p; simp [parse_csv_inventoryAux]
  | cons n rest ih =>
    intro ul pa lg p
    cases hn : pyInt? (pathStem n) with
    | none =>
      have heq : parse_csv_inventoryAux (n :: rest) ul pa lg =
          parse_csv_inventoryAux rest ul pa (lg ++ [.invalidStem (pathStem n)]) := by
        simp [parse_csv_inventoryAux, hn]
      rw [heq, ih]
      simp [List.filterMap_cons, hn]
    | some q =>
      by_cases hq : q ∈ pa
      · have heq : parse_csv_inventoryAux (n :: rest) ul pa lg =
            parse_csv_inventoryAux rest ul pa (lg ++ [.dupFound q n]) := by
          simp [parse_csv_inventoryAux, hn, hq]
        rw [heq, ih]
        simp only [List.filterMap_cons, hn, List.mem_cons]
        constructor
        · rintro (h | h)
          · exact Or.inl h
          · exact Or.inr (Or.inr h)
        · rintro (h | h | h)
          · exact Or.inl h
          · exact Or.inl (h ▸ hq)
          · exact Or.inr h
      · have heq : parse_csv_inventoryAux (n :: rest) ul pa lg =
            parse_csv_inventoryAux rest (ul ++ [n]) (pa ++ [q]) lg := by
          simp [parse_csv_inventoryAux, hn, hq]
        rw [heq, ih]
        simp only [List.filterMap_cons, hn, List.mem_cons, List.mem_append,
          List.mem_singleton]
        tauto

open NimhUtils AwsUpload in
/-- Log entries survive the rest of the inventory loop. -/
theorem au_aux_log_mono (names : List String) :
    ∀ (ul : List String) (pa : List Int) (lg : List ULog) (e : ULog),
      e ∈ lg → e ∈ (parse_csv_inventoryAux names ul pa lg).2.2 := by
  induction names with
  | nil => intro ul pa lg e he; exact he
  | cons n rest ih =>
    intro ul pa lg e he
    cases hn : pyInt? (pathStem n) with
    | none =>
      have heq : parse_csv_inventoryAux (n :: rest) ul pa lg =
          parse_csv_inventoryAux rest ul pa (lg ++ [.invalidStem (pathStem n)]) := by
        simp [parse_csv_inventoryAux, hn]
      rw [heq]
      exact ih _ _ _ e (List.mem_append_left _ he)
    | some q =>
      by_cases hq : q ∈ pa
      · have heq : parse_csv_inventoryAux (n :: rest) ul pa lg =
            parse_csv_inventoryAux rest ul pa (lg ++ [.dupFound q n]) := by
          simp [parse_csv_inventoryAux, hn, hq]
        rw [heq]
        exact ih _ _ _ e (List.mem_append_left _ he)
      · have heq : parse_csv_inventoryAux (n :: rest) ul pa lg =
            parse_csv_inventoryAux rest (ul ++ [n]) (pa ++ [q]) lg := by
          simp [parse_csv_inventoryAux, hn, hq]
        rw [heq]
        exact ih _ _ _ e he

open NimhUtils AwsUpload in
/-- Upload-list entries survive the rest of the inventory loop. -/
theorem au_aux_ul_mono (names : List String) :
    ∀ (ul : List String) (pa : List Int) (lg : List ULog) (x : String),
      x ∈ ul → x ∈ (parse_csv_inventoryAux names ul pa lg).1 := by
  induction names with
  | nil => intro ul pa lg x hx; exact hx
  | cons n rest ih =>
    intro ul pa lg x hx
    cases hn : pyInt? (pathStem n) with
    | none =>
      have heq : parse_csv_inventoryAux (n :: rest) ul pa lg =
          parse_csv_inventoryAux rest ul pa (lg ++ [.invalidStem (pathStem n)]) := by
        simp [parse_csv_inventoryAux, hn]
      rw [heq]
      exact ih _ _ _ x hx
    | some q =>
      by_cases hq : q ∈ pa
      · have heq : parse_csv_inventoryAux (n :: rest) ul pa lg =
            parse_csv_inventoryAux rest ul pa (lg ++ [.dupFound q n]) := by
          simp [parse_csv_inventoryAux, hn, hq]
        rw [heq]
        exact ih _ _ _ x hx
      · have heq : parse_csv_inventoryAux (n :: rest) ul pa lg =
            parse_csv_inventoryAux rest (ul ++ [n]) (pa ++ [q]) lg := by
          simp [parse_csv_inventoryAux, hn, hq]
        rw [heq]
        exact ih _ _ _ x (List.mem_append_left _ hx)

open NimhUtils AwsUpload in
/-- The processed accession set never holds an accession twice. -/
theorem au_aux_nodup (names : List String) :
    ∀ (ul : List String) (pa : List Int) (lg : List ULog),
      pa.Nodup → (parse_csv_inventoryAux names ul pa lg).2.1.Nodup := by
  induction names with
  | nil => intro ul pa lg h; exact h
  | cons n rest ih =>
    intro ul pa lg h
    cases hn : pyInt? (pathStem n) with
    | none =>
      have heq : parse_csv_inventoryAux (n :: rest) ul pa lg =
          parse_csv_inventoryAux rest ul pa (lg ++ [.invalidStem (pathStem n)]) := by
        simp [parse_csv_inventoryAux, hn]
      rw [heq]
      exact ih _ _ _ h
    | some q =>
      by_cases hq : q ∈ pa
      · have heq : parse_csv_inventoryAux (n :: rest) ul pa lg =
            parse_csv_inventoryAux rest ul pa (lg ++ [.dupFound q n]) := by
          simp [parse_csv_inventoryAux, hn, hq]
        rw [heq]
        exact ih _ _ _ h
      · have heq : parse_csv_inventoryAux (n :: rest) ul pa lg =
            parse_csv_inventoryAux rest (ul ++ [n]) (pa ++ [q]) lg := by
          simp [parse_csv_inventoryAux, hn, hq]
        rw [heq]
        apply ih
        refine h.append (List.nodup_singleton q) ?_
        intro x hx hx'
        rw [List.mem_singleton] at hx'
        exact hq (hx' ▸ hx)

open NimhUtils AwsUpload in
/-- Every duplicate occurrence in the inventory gets a duplicate warning
that carries the accession and the duplicate row's own path. -/
theorem au_aux_dup (names : List String) :
    ∀ (ul : List String) (pa : List Int) (lg : List ULog)
      (i : Nat) (hi : i < names.length) (p : Int),
      pyInt? (pathStem names[i]) = some p →
      (p ∈ pa ∨ ∃ j, ∃ hj : j < names.length, j < i ∧
        pyInt? (pathStem names[j]) = some p) →
      ULog.dupFound p names[i] ∈ (parse_csv_inventoryAux names ul pa lg).2.2 := by
  induction names with
  | nil => intro ul pa lg i hi; exact absurd hi (Nat.not_lt_zero i)
  | cons n rest ih =>
    intro ul pa lg i hi p hp hbefore
    cases i with
    | zero =>
      rw [List.getElem_cons_zero] at hp ⊢
      have hmem : p ∈ pa := by
        rcases hbefore with h | ⟨j, hj, hj0, _⟩
        · exact h
        · exact absurd hj0 (Nat.not_lt_zero j)
      have heq : parse_csv_inventoryAux (n :: rest) ul pa lg =
          parse_csv_inventoryAux rest ul pa (lg ++ [.dupFound p n]) := by
        simp [parse_csv_inventoryAux, hp, hmem]
      rw [heq]
      exact au_aux_log_mono rest _ _ _ _
        (List.mem_append_right _ (List.mem_singleton_self _))
    | succ i2 =>
      have hi2 : i2 < rest.length := by
        simp only [List.length_cons] at hi; omega
      rw [List.getElem_cons_succ] at hp ⊢
      cases hn : pyInt? (pathStem n) with
      | none =>
        have heq : parse_csv_inventoryAux (n :: rest) ul pa lg =
            parse_csv_inventoryAux rest ul pa (lg ++ [.invalidStem (pathStem n)]) := by
          simp [parse_csv_inventoryAux, hn]
        rw [heq]
        apply ih _ _ _ i2 hi2 p hp
        rcases hbefore with h | ⟨j, hj, hjlt, hpj⟩
        · exact Or.inl h
        · cases j with
          | zero =>
            rw [List.getElem_cons_zero, hn] at hpj
            exact absurd hpj (by simp)
          | succ j2 =>
            rw [List.getElem_cons_succ] at hpj
            exact Or.inr ⟨j2, by simp only [List.length_cons] at hj; omega,
              by omega, hpj⟩
      | some q =>
        by_cases hq : q ∈ pa
        · have heq : parse_csv_inventoryAux (n :: rest) ul pa lg =
              parse_csv_inventoryAux rest ul pa (lg ++ [.dupFound q n]) := by
            simp [parse_csv_inventoryAux, hn, hq]
          rw [heq]
          apply ih _ _ _ i2 hi2 p hp
          rcases hbefore with h | ⟨j, hj, hjlt, hpj⟩
          · exact Or.inl h
          · cases j with
            | zero =>
              rw [List.getElem_cons_zero, hn] at hpj
              exact Or.inl (Option.some.inj hpj ▸ hq)
            | succ j2 =>
              rw [List.getElem_cons_succ] at hpj
              exact Or.inr ⟨j2, by simp only [List.length_cons] at hj; omega,
                by omega, hpj⟩
        · have heq : parse_csv_inventoryAux (n :: rest) ul pa lg =
              parse_csv_inventoryAux rest (ul ++ [n]) (pa ++ [q]) lg := by
            simp [parse_csv_inventoryAux, hn, hq]
          rw [heq]
          apply ih _ _ _ i2 hi2 p hp
          rcases hbefore with h | ⟨j, hj, hjlt, hpj⟩
          · exact Or.inl (List.mem_append_left _ h)
          · cases j with
            | zero =>
              rw [List.getElem_cons_zero, hn] at hpj
              exact Or.inl (List.mem_append_right _
                (List.mem_singleton.mpr (Option.some.inj hpj).symm))
            | succ j2 =>
              rw [List.getElem_cons_succ] at hpj
              exact Or.inr ⟨j2, by simp only [List.length_cons] at hj; omega,
                by omega, hpj⟩

open NimhUtils AwsUpload in
/-- The first occurrence of each accession is kept in the upload list. -/
theorem au_aux_first (names : List String) :
    ∀ (ul : List String) (pa : List Int) (lg : List ULog)
      (i : Nat) (hi : i < names.length) (p : Int),
      pyInt? (pathStem names[i]) = some p → p ∉ pa →
      (∀ j, ∀ hj : j < names.length, j < i →
        pyInt? (pathStem names[j]) ≠ some p) →
      names[i] ∈ (parse_csv_inventoryAux names ul pa lg).1 := by
  induction names with
  | nil => intro ul pa lg i hi; exact absurd hi (Nat.not_lt_zero i)
  | cons n rest ih =>
    intro ul pa lg i hi p hp hnp hmin
    cases i with
    | zero =>
      rw [List.getElem_cons_zero] at hp ⊢
      have heq : parse_csv_inventoryAux (n :: rest) ul pa lg =
          parse_csv_inventoryAux rest (ul ++ [n]) (pa ++ [p]) lg := by
        simp [parse_csv_inventoryAux, hp, hnp]
      rw [heq]
      exact au_aux_ul_mono rest _ _ _ _
        (List.mem_append_right _ (List.mem_singleton_self _))
    | succ i2 =>
      have hi2 : i2 < rest.length := by
        simp only [List.length_cons] at hi; omega
      rw [List.getElem_cons_succ] at hp ⊢
      have hmin2 : ∀ j, ∀ hj : j < rest.length, j < i2 →
          pyInt? (pathStem rest[j]) ≠ some p := by
        intro j hj hjlt
        have hm := hmin (j + 1) (by simp only [List.length_cons]; omega) (by omega)
        rw [List.getElem_cons_succ] at hm
        exact hm
      have hn0 : pyInt? (pathStem n) ≠ some p := by
        have hm := hmin 0 (by simp only [List.length_cons]; omega) (by omega)
        rw [List.getElem_cons_zero] at hm
        exact hm
      cases hn : pyInt? (pathStem n) with
      | none =>
        have heq : parse_csv_inventoryAux (n :: rest) ul pa lg =
            parse_csv_inventoryAux rest ul pa (lg ++ [.invalidStem (pathStem n)]) := by
          simp [parse_csv_inventoryAux, hn]
        rw [heq]
        exact ih _ _ _ i2 hi2 p hp hnp hmin2
      | some q =>
        have hqp : q ≠ p := by
          intro h
          exact hn0 (by rw [hn, h])
        by_cases hq : q ∈ pa
        · have heq : parse_csv_inventoryAux (n :: rest) ul pa lg =
              parse_csv_inventoryAux rest ul pa (lg ++ [.dupFound q n]) := by
            simp [parse_csv_inventoryAux, hn, hq]
          rw [heq]
          exact ih _ _ _ i2 hi2 p hp hnp hmin2
        · have heq : parse_csv_inventoryAux (n :: rest) ul pa lg =
              parse_csv_inventoryAux rest (ul ++ [n]) (pa ++ [q]) lg := by
            simp [parse_csv_inventoryAux, hn, hq]
          rw [heq]
          refine ih _ _ _ i2 hi2 p hp ?_ hmin2
          intro hmem
          rcases List.mem_append.mp hmem with h | h
          · exact hnp h
          · exact hqp (List.mem_singleton.mp h).symm

open NimhUtils AwsUpload in
/-- Claim C6, counterexample in the upload-inventory parser: two inputs
whose winning first occurrences are different files produce identical
duplicate logs, so parse_csv_inventory's duplicate warning — which names
only the accession and the duplicate row's own path — records nothing
about which first occurrence wins. -/
theorem C6_same_log_counterexample :
    (parse_csv_inventory ["first/7.pdf", "dup/7.pdf"]).2.2 =
      [ULog.dupFound 7 "dup/7.pdf"] ∧
    (parse_csv_inventory ["other/7.pdf", "dup/7.pdf"]).2.2 =
      [ULog.dupFound 7 "dup/7.pdf"] ∧
    (parse_csv_inventory ["first/7.pdf", "dup/7.pdf"]).1 ≠
      (parse_csv_inventory ["other/7.pdf", "dup/7.pdf"]).1 := by
  decide

open NimhUtils S3CsvInventory AwsUpload in
/-- Claim C6 as amended: both parsers retain exactly one copy of each
parseable identifier — the first-seen occurrence — and log every
subsequent duplicate occurrence instead of failing; parse_csv_pmids
additionally records which first occurrence wins (the warning carries the
first occurrence's row number), while parse_csv_inventory's duplicate
warning carries only the accession and the duplicate row's own path. -/
theorem C6_dedup_first_and_log (hh : Bool) (fields names : List String) :
    ((∀ p : Int, p ∈ (parse_csv_pmids hh fields).pmids ↔
        p ∈ fields.filterMap pyInt?) ∧
     (parse_csv_pmids hh fields).pmids.Nodup ∧
     (∀ (i : Nat) (hi : i < fields.length) (p : Int),
       pyInt? fields[i] = some p →
       (∃ j, ∃ hj : j < fields.length, j < i ∧ pyInt? fields[j] = some p) →
       ∃ j, ∃ hj : j < fields.length, j < i ∧ pyInt? fields[j] = some p ∧
         (∀ k, ∀ hk : k < fields.length, k < j → pyInt? fields[k] ≠ some p) ∧
         LogEntry.dupWarning p (startRow hh + i) (startRow hh + j) ∈
           (parse_csv_pmids hh fields).log)) ∧
    ((∀ p : Int, p ∈ (parse_csv_inventory names).2.1 ↔
        p ∈ names.filterMap (fun n => pyInt? (pathStem n))) ∧
     (parse_csv_inventory names).2.1.Nodup ∧
     (∀ (i : Nat) (hi : i < names.length) (p : Int),
       pyInt? (pathStem names[i]) = some p →
       (∃ j, ∃ hj : j < names.length, j < i ∧
         pyInt? (pathStem names[j]) = some p) →
       ULog.dupFound p names[i] ∈ (parse_csv_inventory names).2.2) ∧
     (∀ (i : Nat) (hi : i < names.length) (p : Int),
       pyInt? (pathStem names[i]) = some p →
       (∀ j, ∀ hj : j < names.length, j < i →
         pyInt? (pathStem names[j]) ≠ some p) →
       names[i] ∈ (parse_csv_inventory names).1)) := by
  refine ⟨⟨?_, ?_, ?_⟩, ?_, ?_, ?_, ?_⟩
  · intro p
    rw [parse_csv_pmids, parseAux_mem]
    simp
  · exact parseAux_nodup fields _ _ List.nodup_nil
  · intro i hi p hp hex
    exact (parseAux_dup fields (startRow hh) ⟨[], fun _ => none, []⟩
      (by intro p2; simp) i hi p hp).2 rfl hex
  · intro p
    rw [parse_csv_inventory, au_aux_mem]
    simp
  · exact au_aux_nodup names _ _ _ List.nodup_nil
  · intro i hi p hp hex
    exact au_aux_dup names [] [] [] i hi p hp (Or.inr hex)
  · intro i hi p hp hmin
    exact au_aux_first names [] [] [] i hi p hp (List.not_mem_nil p) hmin

theorem C6_witness :
    (∃ j, ∃ hj : j < (["5", "x", "5"] : List String).length, j < 2 ∧
      NimhUtils.pyInt? (["5", "x", "5"] : List String)[j] = some 5 ∧
      (∀ k, ∀ hk : k < (["5", "x", "5"] : List String).length, k < j →
        NimhUtils.pyInt? (["5", "x", "5"] : List String)[k] ≠ some 5) ∧
      S3CsvInventory.LogEntry.dupWarning 5 (S3CsvInventory.startRow true + 2)
          (S3CsvInventory.startRow true + j) ∈
        (S3CsvInventory.parse_csv_pmids true ["5", "x", "5"]).log) ∧
    AwsUpload.ULog.dupFound 7 "dup/7.pdf" ∈
      (AwsUpload.parse_csv_inventory ["first/7.pdf", "dup/7.pdf"]).2.2 ∧
    "first/7.pdf" ∈
      (AwsUpload.parse_csv_inventory ["first/7.pdf", "dup/7.pdf"]).1 :=
  ⟨(C6_dedup_first_and_log true ["5", "x", "5"]
      ["first/7.pdf", "dup/7.pdf"]).1.2.2 2 (by decide) 5 (by decide)
    ⟨0, by decide, by decide, by decide⟩,
   (C6_dedup_first_and_log true ["5", "x", "5"]
      ["first/7.pdf", "dup/7.pdf"]).2.2.2.1 1 (by decide) 7 (by decide)
    ⟨0, by decide, by decide, by decide⟩,
   (C6_dedup_first_and_log true ["5", "x", "5"]
      ["first/7.pdf", "dup/7.pdf"]).2.2.2.2 0 (by decide) 7 (by decide)
    (fun j hj hlt => absurd hlt (Nat.not_lt_zero j))⟩

open NimhUtils S3CsvInventory in
/-- Membership in the S3 pmid set is exactly membership among the keys
whose stem parses. -/
theorem get_s3_aux_mem (keys : List String) :
    ∀ (pm : List Int) (lg : List LogEntry) (p : Int),
      p ∈ (get_s3_pmidsAux keys pm lg).1 ↔
        p ∈ pm ∨ p ∈ keys.filterMap (fun k => pyInt? (pathStem k)) := by
  induction keys with
  | nil => intro pm lg p; simp [get_s3_pmidsAux]
  | cons k rest ih =>
    intro pm lg p
    cases hk : pyInt? (pathStem k) with
    | none =>
      have heq : get_s3_pmidsAux (k :: rest) pm lg =
          get_s3_pmidsAux rest pm (lg ++ [.stemWarning (pathStem k)]) := by
        simp [get_s3_pmidsAux, hk]
      rw [heq, ih]
      simp [List.filterMap_cons, hk]
    | some q =>
      have heq : get_s3_pmidsAux (k :: rest) pm lg =
          get_s3_pmidsAux rest (if q ∈ pm then pm else pm ++ [q]) lg := by
        simp [get_s3_pmidsAux, hk]
      rw [heq, ih]
      simp only [List.filterMap_cons, hk, List.mem_cons]
      by_cases hq : q ∈ pm
      · rw [if_pos hq]
        constructor
        · rintro (h | h)
          · exact Or.inl h
          · exact Or.inr (Or.inr h)
        · rintro (h | h | h)
          · exact Or.inl h
          · exact Or.inl (h ▸ hq)
          · exact Or.inr h
      · rw [if_neg hq]
        simp only [List.mem_append, List.mem_singleton]
        tauto

open NimhUtils S3CsvInventory in
/-- Warnings survive the rest of the S3 listing loop. -/
theorem get_s3_aux_log_mono (keys : List String) :
    ∀ (pm : List Int) (lg : List LogEntry) (e : LogEntry),
      e ∈ lg → e ∈ (get_s3_pmidsAux keys pm lg).2 := by
  induction keys with
  | nil => intro pm lg e he; exact he
  | cons k rest ih =>
    intro pm lg e he
    cases hk : pyInt? (pathStem k) with
    | none =>
      have heq : get_s3_pmidsAux (k :: rest) pm lg =
          get_s3_pmidsAux rest pm (lg ++ [.stemWarning (pathStem k)]) := by
        simp [get_s3_pmidsAux, hk]
      rw [heq]
      exact ih _ _ e (List.mem_append_left _ he)
    | some q =>
      have heq : get_s3_pmidsAux (k :: rest) pm lg =
          get_s3_pmidsAux rest (if q ∈ pm then pm else pm ++ [q]) lg := by
        simp [get_s3_pmidsAux, hk]
      rw [heq]
      exact ih _ _ e he

open NimhUtils S3CsvInventory in
/-- Every key whose stem fails to parse gets a logged warning. -/
theorem get_s3_aux_warn (keys : List String) :
    ∀ (pm : List Int) (lg : List LogEntry) (k : String), k ∈ keys →
      pyInt? (pathStem k) = none →
      LogEntry.stemWarning (pathStem k) ∈ (get_s3_pmidsAux keys pm lg).2 := by
  induction keys with
  | nil => intro pm lg k hk; exact absurd hk (List.not_mem_nil k)
  | cons k0 rest ih =>
    intro pm lg k hk hnone
    rcases List.mem_cons.mp hk with rfl | hmem
    · have heq : get_s3_pmidsAux (k :: rest) pm lg =
          get_s3_pmidsAux rest pm (lg ++ [.stemWarning (pathStem k)]) := by
        simp [get_s3_pmidsAux, hnone]
      rw [heq]
      exact get_s3_aux_log_mono rest _ _ _
        (List.mem_append_right _ (List.mem_singleton_self _))
    · cases hk0 : pyInt? (pathStem k0) with
      | none =>
        have heq : get_s3_pmidsAux (k0 :: rest) pm lg =
            get_s3_pmidsAux rest pm (lg ++ [.stemWarning (pathStem k0)]) := by
          simp [get_s3_pmidsAux, hk0]
        rw [heq]
        exact ih _ _ k hmem hnone
      | some q =>
        have heq : get_s3_pmidsAux (k0 :: rest) pm lg =
            get_s3_pmidsAux rest (if q ∈ pm then pm else pm ++ [q]) lg := by
          simp [get_s3_pmidsAux, hk0]
        rw [heq]
        exact ih _ _ k hmem hnone

open NimhUtils AwsDownload in
/-- Every nonblank line that does not split into exactly two fields gets
a malformed-line warning. -/
theorem read_aux_warn (lines : List String) :
    ∀ (line : String), line ∈ lines →
      stripChars line.data ≠ [] →
      ((splitOnChar ',' (stripChars line.data)).map String.mk).length ≠ 2 →
      RLog.malformed (String.mk (stripChars line.data)) ∈
        (read_pmid_locationsAux lines).2 := by
  induction lines with
  | nil => intro line h; exact absurd h (List.not_mem_nil line)
  | cons l rest ih =>
    intro line hmem hne hlen
    rcases List.mem_cons.mp hmem with rfl | hmem2
    · rw [read_pmid_locationsAux, if_neg hne]
      split
      · next a b heq => exact absurd (by rw [heq]; rfl) hlen
      · exact List.mem_cons_self _ _
    · have htail := ih line hmem2 hne hlen
      rw [read_pmid_locationsAux]
      split
      · exact htail
      · split
        · exact htail
        · exact List.mem_cons_of_mem _ htail

open NimhUtils AwsDownload in
/-- Claim C7, counterexample in the manifest reader: the line with the
non-numeric identifier abc and a well-formed two-field shape is not
dropped — it is kept as a manifest entry with no warning logged, because
read_pmid_locations never parses the identifier as a number. -/
theorem C7_nonnumeric_kept_counterexample :
    pyInt? "abc" = none ∧
    (read_pmid_locations ["abc,s3://bucket/k.pdf"]).1 =
      [⟨"k.pdf", "abc/abc.pdf", "abc"⟩] ∧
    (read_pmid_locations ["abc,s3://bucket/k.pdf"]).2 = [] := by
  decide

open NimhUtils S3CsvInventory AwsDownload in
/-- Claim C7 as amended: in the requested-set parser every field that
fails to parse is logged as invalid and only parseable values enter the
set; in the remote-listing parser every key whose stem fails to parse is
logged and only parseable stems enter the set (and both parsers are total,
never raising); the manifest reader drops, with a warning, only lines that
are structurally malformed — nonblank but not exactly two comma-separated
fields — and performs no numeric validation of the identifier. -/
theorem C7_unparseable_dropped_amended :
    (∀ (hh : Bool) (fields : List String) (i : Nat) (hi : i < fields.length),
      pyInt? fields[i] = none →
      LogEntry.invalidFormat (startRow hh + i) fields[i] ∈
        (parse_csv_pmids hh fields).log ∧
      ∀ p : Int, p ∈ (parse_csv_pmids hh fields).pmids →
        ∃ raw, raw ∈ fields ∧ pyInt? raw = some p) ∧
    (∀ (keys : List String) (k : String), k ∈ keys →
      pyInt? (pathStem k) = none →
      LogEntry.stemWarning (pathStem k) ∈ (get_s3_pmids keys).2 ∧
      ∀ p : Int, p ∈ (get_s3_pmids keys).1 →
        ∃ k2, k2 ∈ keys ∧ pyInt? (pathStem k2) = some p) ∧
    (∀ (lines : List String) (line : String), line ∈ lines →
      stripChars line.data ≠ [] →
      ((splitOnChar ',' (stripChars line.data)).map String.mk).length ≠ 2 →
      RLog.malformed (String.mk (stripChars line.data)) ∈
        (read_pmid_locations lines).2) := by
  refine ⟨?_, ?_, ?_⟩
  · intro hh fields i hi hp
    refine ⟨parseAux_invalid fields (startRow hh) _ i hi hp, ?_⟩
    intro p hmem
    rw [parse_csv_pmids, parseAux_mem] at hmem
    rcases hmem with h | h
    · exact absurd h (List.not_mem_nil p)
    · exact List.mem_filterMap.mp h
  · intro keys k hk hnone
    refine ⟨get_s3_aux_warn keys [] [] k hk hnone, ?_⟩
    intro p hmem
    rw [get_s3_pmids, get_s3_aux_mem] at hmem
    rcases hmem with h | h
    · exact absurd h (List.not_mem_nil p)
    · exact List.mem_filterMap.mp h
  · intro lines line hmem hne hlen
    exact read_aux_warn lines line hmem hne hlen

theorem C7_witness :
    S3CsvInventory.LogEntry.invalidFormat 2 "x" ∈
      (S3CsvInventory.parse_csv_pmids true ["x", "7"]).log ∧
    (∃ raw, raw ∈ (["x", "7"] : List String) ∧ NimhUtils.pyInt? raw = some 7) ∧
    S3CsvInventory.LogEntry.stemWarning "junk" ∈
      (S3CsvInventory.get_s3_pmids ["osm/junk.pdf"]).2 ∧
    AwsDownload.RLog.malformed "a,b,c" ∈
      (AwsDownload.read_pmid_locations ["a,b,c"]).2 :=
  ⟨(C7_unparseable_dropped_amended.1 true ["x", "7"] 0 (by decide) (by decide)).1,
   (C7_unparseable_dropped_amended.1 true ["x", "7"] 0 (by decide) (by decide)).2
     7 (by decide),
   (C7_unparseable_dropped_amended.2.1 ["osm/junk.pdf"] "osm/junk.pdf"
     (by decide) (by decide)).1,
   C7_unparseable_dropped_amended.2.2 ["a,b,c"] "a,b,c" (by decide) (by decide)
     (by decide)⟩
